import Mathlib

/-
Verification development for the bsfit Bayesian observer model fitting
library (src/nodes/utils.py).  The Python source is shallowly embedded:
matrices become lists of columns over the rationals, stateful pandas
mutation becomes explicit state passing on a Database record, and Python
exceptions become an Except monad with a small error type.  Floating
point numbers are modelled by exact rationals (the claims under study
concern control flow, normalization algebra and sign conditions, not
round-off); real-valued logarithms appear only in the objective value,
modelled with Real.log.
-/

namespace BsFit

/-- Python runtime failures raised by the source module:
ValueError and generic Exception are raised explicitly,
NotImplementedError is raised for unsupported readouts, and
unboundLocal models Python's UnboundLocalError / NameError when a
branch reads a variable that was never assigned. -/
inductive PyError where
  | valueError (msg : String)
  | notImplemented (msg : String)
  | exception (msg : String)
  | unboundLocal (name : String)
deriving DecidableEq

/-- The tabular dataset contract of section 6: one list per column,
row i of the table is the i-th entry of every column. -/
structure Database where
  stim_mean : List ℚ
  stim_std : List ℚ
  prior_mode : List ℚ
  prior_std : List ℚ
  prior_shape : List String
  estimate : List ℚ
deriving DecidableEq

/-- utils.py line 224-227: map an estimate of 0 degrees to 360 degrees. -/
def canonicalize_estimate (e : ℚ) : ℚ :=
  if e = 0 then 360 else e

/-- utils.py get_data (lines 212-228): returns (stim_mean, estimate) and,
because the pandas chained assignment writes through to the caller's
dataframe, also the mutated database.  The returned second component is
the state of the caller's table after the call. -/
def get_data (db : Database) : (List ℚ × List ℚ) × Database :=
  let estimate := db.estimate.map canonicalize_estimate
  ((db.stim_mean, estimate), { db with estimate := estimate })

/-- utils.py line 376-379: mix the Bayesian percept column with the
uniform guessing distribution, entrywise
(1 - p_rand) * P(percept given BI) + p_rand * (1/360). -/
def mix_with_uniform (p_rand : ℚ) (col : List ℚ) : List ℚ :=
  col.map (fun x => x * (1 - p_rand) + p_rand * (1 / 360))

/-- utils.py line 377-379 applied to the whole (percept x trial) matrix,
stored as a list of trial columns. -/
def pupo_given_model (p_rand : ℚ) (cols : List (List ℚ)) : List (List ℚ) :=
  cols.map (mix_with_uniform p_rand)

/-- utils.py line 382-383:
"if not all(sum(PupoGivenModel)) == 1: raise ValueError(...)".
Python parses this as "not (all(colsums) == 1)"; the builtin all tests
the truthiness (nonzeroness) of every column sum, and True == 1 holds
in Python, so the raise fires exactly when some column sum is exactly
0.  The comparison with 1 never inspects the individual sums. -/
def check_pupo_sums (cols : List (List ℚ)) : Except PyError Unit :=
  if ∃ s ∈ (cols.map List.sum : List ℚ), s = 0 then
    Except.error (PyError.valueError "PupoGivenModel should sum to 1")
  else
    Except.ok ()

/-- utils.py line 411-414: the strictly positive floor written 10e-320,
that is 10 * 10 ^ (-320) = 10 ^ (-319). -/
def eps : ℚ := 1 / 10 ^ 319

/-- utils.py line 411-414: floor every non-positive entry of a trial
column to eps. -/
def floor_col (c : List ℚ) : List ℚ :=
  c.map (fun x => if x ≤ 0 then eps else x)

/-- utils.py line 420-423 and 787-790: renormalize a column by its sum. -/
def norm_col (c : List ℚ) : List ℚ :=
  c.map (fun x => x / c.sum)

/-- utils.py line 429-437: canonicalize a raw integer estimate
(0 becomes 360) and convert it to a 0-based row index. -/
def estimate_loc (e : ℕ) : ℕ :=
  (if e = 0 then 360 else e) - 1

/-- utils.py line 436-440: gather, for each trial column, the floored and
renormalized predicted probability at the observed estimate's row. -/
def p_data_given_model (cols : List (List ℚ)) (locs : List ℕ) : List ℚ :=
  (cols.zip locs).map (fun pr => (norm_col (floor_col pr.1)).getD pr.2 0)

/-- A concentration parameter: a finite nonnegative value or numpy inf. -/
inductive Conc where
  | fin (q : ℚ)
  | inf
deriving DecidableEq

/-- numpy round to 6 decimals uses round-half-to-even. -/
def round_half_even (x : ℚ) : ℤ :=
  let f := ⌊x⌋
  let r := x - f
  if r < 1 / 2 then f
  else if 1 / 2 < r then f + 1
  else if 2 ∣ f then f else f + 1

/-- utils.py line 966: np.round(posterior, 6). -/
def round6 (x : ℚ) : ℚ :=
  (round_half_even (x * 10 ^ 6) : ℚ) / 10 ^ 6

/-- utils.py line 950-966 applied to one measurement column: normalize
the pointwise product column by its sum and round to 6 decimals.  When
the sum is 0 every entry of the column is 0 (von Mises densities are
nonnegative) and numpy's 0/0 yields NaN for the whole column, modelled
as none. -/
def normalize_round_col (c : List ℚ) : List (Option ℚ) :=
  if c.sum = 0 then c.map (fun _ => (none : Option ℚ))
  else c.map (fun x => some (round6 (x / c.sum)))

/-- utils.py line 950-966: the normalized rounded posterior, one column
per measurement; llh and learnt_prior are stored as lists of columns
over the stimulus space. -/
def bayes_posterior (llh learnt_prior : List (List ℚ)) : List (List (Option ℚ)) :=
  (llh.zip learnt_prior).map (fun pr => normalize_round_col (List.zipWith (· * ·) pr.1 pr.2))

/-- utils.py do_bayes_inference (lines 937-1020).  After normalization
the code looks for NaN entries in row 0 (line 977) and, if any column is
degenerate, enters the closed-form branch:
line 987-991 sets k_ratio := k_llh / k_prior, overwrites it with 1 when
both concentrations are infinite and raises "Check k_prior or k_llh"
otherwise; line 1004-1014 then computes kpo and unconditionally raises
the "not yet solved" exception whenever k_llh or k_prior is infinite.
The remaining fill of the degenerate columns (line 1017) would read the
variable kpo, which is unbound on any path that reaches it. -/
def do_bayes_inference (k_llh k_prior : Conc) (llh learnt_prior : List (List ℚ)) :
    Except PyError (List (List (Option ℚ))) :=
  if ∃ c ∈ bayes_posterior llh learnt_prior, c.head? = some none then
    if k_llh = Conc.inf ∧ k_prior = Conc.inf then
      -- k_ratio := 1; upo := closed-form resultant mode
      if k_llh = Conc.inf ∨ k_prior = Conc.inf then
        -- kpo := closed-form resultant concentration, then raise
        Except.error (PyError.exception
          "We have not yet solved Bayesian integration when k_llh or k_prior is +inf")
      else
        Except.error (PyError.unboundLocal "kpo")
    else
      Except.error (PyError.exception "Check k_prior or k_llh")
  else
    Except.ok (bayes_posterior llh learnt_prior)

/-- utils.py line 880: replace a percept of 0 degrees by 360 degrees. -/
def canon_percept (p : ℕ) : ℕ :=
  if p = 0 then 360 else p

/-- numpy max over a column, defined only on nonempty input. -/
def np_max (l : List ℚ) : Option ℚ :=
  match l with
  | [] => none
  | a :: t => some (t.foldl max a)

/-- utils.py line 845-868: for one measurement column, collect the
stimulus-space positions attaining the column's posterior maximum, in
increasing order, with 0 canonicalized to 360. -/
def choose_percept_row (space : List ℕ) (col : List ℚ) : List ℕ :=
  match np_max col with
  | none => []
  | some mx =>
    ((space.zip col).filter (fun pr => decide (pr.2 = mx))).map
      (fun pr => canon_percept pr.1)

/-- utils.py choose_percept (lines 794-893): for readout "map", map
every measurement column to its set of tied maximum-a-posteriori
candidates; raise if some measurement has no percept, raise if some
candidate leaves [1,360]; any other readout raises NotImplementedError.
Returns the candidate rows (NaN padding dropped) and the maximum
candidate count over measurements. -/
def choose_percept (readout : String) (space : List ℕ) (posterior : List (List ℚ)) :
    Except PyError (List (List ℕ) × ℕ) :=
  if readout = "map" then
    if ∃ r ∈ posterior.map (choose_percept_row space), r = [] then
      Except.error (PyError.valueError "Measurement has no percepts.")
    else if ∃ r ∈ posterior.map (choose_percept_row space), ∃ p ∈ r, 360 < p ∨ p < 1 then
      Except.error (PyError.valueError "Percepts must belong to [1,360].")
    else
      Except.ok (posterior.map (choose_percept_row space),
        ((posterior.map (choose_percept_row space)).map List.length).foldr max 0)
  else
    Except.error (PyError.notImplemented "Readout has not yet been implemented.")

/-- utils.py get_learnt_prior (lines 896-934): the only construction
branch is guarded by prior_shape == "vonMisesPrior"; it tiles the von
Mises prior column (computed by the external VonMises class) once per
measurement.  For any other shape the trailing "return learnt_prior"
reads an unbound variable, which Python surfaces as UnboundLocalError. -/
def get_learnt_prior (prior_shape : String) (vm_prior_col : List ℚ) (n_percept : ℕ) :
    Except PyError (List (List ℚ)) :=
  if prior_shape = "vonMisesPrior" then
    Except.ok (List.replicate n_percept vm_prior_col)
  else
    Except.error (PyError.unboundLocal "learnt_prior")

/-- One measurement m_i of get_percept_likelihood (lines 584-791): its
tied candidate percepts (the non-NaN entries of its percept row) and its
measurement likelihood P(m_i given s_j), one entry per stimulus mean of
the condition. -/
structure Meas where
  candidates : List ℕ
  lik : List ℚ
deriving DecidableEq

/-- utils.py line 637-642: each of the k tied candidates of a
measurement receives conditional probability 1/k. -/
def prob_pi_given_mi (m : Meas) : ℚ :=
  1 / (m.candidates.length : ℚ)

/-- utils.py line 647-698: the column-major flattening of the percept
matrix paired with its probability rows, for stimulus column j.  Each
pair is (candidate percept, P(p given m) * P(m given s_j)); the source
then sorts these rows by percept, which does not change any sum. -/
def percept_prob_pairs (ms : List Meas) (j : ℕ) : List (ℕ × ℚ) :=
  ms.flatMap (fun m =>
    m.candidates.map (fun c => (c, prob_pi_given_mi m * m.lik.getD j 0)))

/-- utils.py line 706-771: the aggregated likelihood of percept p for
stimulus column j, the sum of the probability rows whose percept equals
p (unproduced percepts get the empty sum 0, matching the inserted zero
rows). -/
def prob_pi_set_given_si (ms : List Meas) (p : ℕ) (j : ℕ) : ℚ :=
  (((percept_prob_pairs ms j).filter (fun pr => decide (pr.1 = p))).map
    Prod.snd).sum

/-- Spec wording of section 4.5, for comparison with the source
aggregation: P(p given s) = sum over measurements m whose candidate set
contains p of P(p given m) * P(m given s). -/
def spec_percept_likelihood (ms : List Meas) (p : ℕ) (j : ℕ) : ℚ :=
  ((ms.filter (fun m => decide (p ∈ m.candidates))).map
    (fun m => prob_pi_given_mi m * m.lik.getD j 0)).sum

/-- utils.py line 758-790: the final percept likelihood table.  Its rows
are the percepts 1..360 in increasing order (the produced percepts plus
the inserted zero rows for missing percepts cover all of [1,360]); its
columns are indexed by the full stimulus space 1..360.  A column for
stimulus s is filled from data column j with stim_mean[j] = s and then
renormalized; columns for stimulus values absent from the condition are
initialized with NaN and stay NaN (none). -/
def percept_likelihood_col (ms : List Meas) (stim_mean : List ℕ) (s : ℕ) :
    Option (List ℚ) :=
  match stim_mean.findIdx? (fun t => decide (t = s)) with
  | some j =>
    some (norm_col ((List.range' 1 360).map (fun p => prob_pi_set_given_si ms p j)))
  | none => none

/-- The fmin keyword arguments of utils.py lines 63-72. -/
structure FminOptions where
  maxiter : ℕ
  maxfun : ℕ
  ftol : ℚ
  retall : Bool
  disp : Bool
deriving DecidableEq

/-- utils.py line 63-72: fmin is called with disp=True, retall=True,
maxiter=100, maxfun=100, ftol=0.0001. -/
def fit_maxlogl_fmin_options : FminOptions :=
  { maxiter := 100, maxfun := 100, ftol := 1 / 10000, retall := true, disp := true }

/-- The return contract of scipy.optimize.fmin under retall=True and
full_output=0: a pair of the best parameter vector xopt and allvecs,
the list of the simplex's best parameter vector after each iteration
(not the objective values). -/
structure FminOutput where
  xopt : List ℚ
  allvecs : List (List ℚ)
deriving DecidableEq

/-- The result dictionary of fit_maxlogl. -/
structure FitResult where
  neglogl : List (List ℚ)
  best_fit_params : List ℚ
deriving DecidableEq

/-- utils.py line 74-80: the result packaging of fit_maxlogl;
best_fit_params := output[0] and neglogl := output[1], where output[1]
is fmin's allvecs because retall=True and full_output was left at 0. -/
def fit_maxlogl_pack (output : FminOutput) : FitResult :=
  { neglogl := output.allvecs, best_fit_params := output.xopt }

/-- On the concrete inputs used below, the normalized posterior has a
single degenerate (all NaN) measurement column: the likelihood column
is identically 0, so the product column sums to 0 and numpy leaves
NaN entries after marginalization. -/
theorem bayes_posterior_zero_cols :
    bayes_posterior [[0, 0]] [[1, 1]] = [[none, none]] := by
  norm_num [bayes_posterior, normalize_round_col]
  rfl

/-- C1 counterexample: with both concentrations infinite and a
degenerate (all NaN) posterior column, do_bayes_inference does not
return normally as the claim states: after setting k_ratio to 1 and
computing the closed-form resultant concentration, the branch raises
the unsupported infinite-concentration exception. -/
theorem claim1_counterexample :
    do_bayes_inference Conc.inf Conc.inf [[0, 0]] [[1, 1]]
      = Except.error (PyError.exception
        "We have not yet solved Bayesian integration when k_llh or k_prior is +inf") := by
  have h : ∃ c ∈ bayes_posterior [[0, 0]] [[1, 1]], c.head? = some none := by
    rw [bayes_posterior_zero_cols]
    exact ⟨[none, none], by simp, rfl⟩
  unfold do_bayes_inference
  rw [if_pos h, if_pos ⟨rfl, rfl⟩, if_pos (Or.inl rfl)]

/-- C1 amended: every invocation of do_bayes_inference in which some
normalized posterior column is entirely NaN raises and returns no
fallback value: when both concentrations are infinite, k_ratio is set
to 1 and the closed-form concentration is computed, but the call then
raises the unsupported infinite-concentration exception (the column
recomputation is dead code); for every other combination that reaches
the branch the call raises the check exception. -/
theorem claim1_degenerate_always_raises (k_llh k_prior : Conc)
    (llh learnt_prior : List (List ℚ))
    (h : ∃ c ∈ bayes_posterior llh learnt_prior, c.head? = some none) :
    do_bayes_inference k_llh k_prior llh learnt_prior
      = Except.error (if k_llh = Conc.inf ∧ k_prior = Conc.inf then
          PyError.exception
            "We have not yet solved Bayesian integration when k_llh or k_prior is +inf"
        else PyError.exception "Check k_prior or k_llh") := by
  unfold do_bayes_inference
  rw [if_pos h]
  by_cases hk : k_llh = Conc.inf ∧ k_prior = Conc.inf
  · rw [if_pos hk, if_pos (Or.inl hk.1), if_pos hk]
  · rw [if_neg hk, if_neg hk]

/-- C1 witness: a finite combination reaching the degenerate branch
raises the check exception. -/
theorem claim1_witness :
    do_bayes_inference (Conc.fin 1) (Conc.fin 2) [[0, 0]] [[1, 1]]
      = Except.error (if Conc.fin 1 = Conc.inf ∧ Conc.fin 2 = Conc.inf then
          PyError.exception
            "We have not yet solved Bayesian integration when k_llh or k_prior is +inf"
        else PyError.exception "Check k_prior or k_llh") :=
  claim1_degenerate_always_raises (Conc.fin 1) (Conc.fin 2) [[0, 0]] [[1, 1]]
    (by rw [bayes_posterior_zero_cols]; exact ⟨[none, none], by simp, rfl⟩)

/-- C2: the sum-to-one guard of get_logl does not implement the claimed
check.  On the mixed matrix built with p_rand = 0 from a single trial
column summing to 1/2 the guard returns normally although the column
does not sum to 1 within any tolerance; the Python expression
"not all(sum(M)) == 1" raises exactly when some column sum is 0, as the
last conjunct shows. -/
theorem claim2_sum_check_divergence :
    ((pupo_given_model 0 [[1/2]]).map List.sum = [1/2]) ∧
    ((1 : ℚ)/2 ≠ 1) ∧
    check_pupo_sums (pupo_given_model 0 [[1/2]]) = Except.ok () ∧
    check_pupo_sums [[0, 0]]
      = Except.error (PyError.valueError "PupoGivenModel should sum to 1") := by
  have hsum : (pupo_given_model 0 [[1/2]]).map List.sum = [1/2] := by
    norm_num [pupo_given_model, mix_with_uniform]
  refine ⟨hsum, by norm_num, ?_, ?_⟩
  · have hno : ¬ ∃ s ∈ ([1/2] : List ℚ), s = 0 := by
      rintro ⟨s, hs, h0⟩
      rw [List.mem_singleton] at hs
      subst hs
      norm_num at h0
    unfold check_pupo_sums
    simp only [hsum]
    exact if_neg hno
  · have h00 : ([[0, 0]] : List (List ℚ)).map List.sum = [0] := by norm_num
    unfold check_pupo_sums
    simp only [h00]
    exact if_pos ⟨0, by simp, rfl⟩

/-- C3: the estimate canonicalization in get_data writes through to the
callers dataset: on a dataset whose single trial has estimate 0, the
callers table after the call differs from its value before the call;
its estimate column has become [360]. -/
theorem claim3_get_data_mutates_caller :
    ((get_data ⟨[225], [66/100], [225], [80], ["vonMisesPrior"], [0]⟩).2
      ≠ ⟨[225], [66/100], [225], [80], ["vonMisesPrior"], [0]⟩) ∧
    (get_data ⟨[225], [66/100], [225], [80], ["vonMisesPrior"], [0]⟩).2.estimate
      = [360] := by
  constructor
  · intro h
    have h2 := congrArg Database.estimate h
    norm_num [get_data, canonicalize_estimate] at h2
  · norm_num [get_data, canonicalize_estimate]

/-- The floor value 10e-320 of line 414 is strictly positive. -/
theorem eps_pos : 0 < eps := by
  norm_num [eps]

/-- Every entry of a floored trial column is strictly positive. -/
theorem mem_floor_col_pos {c : List ℚ} {x : ℚ} (hx : x ∈ floor_col c) : 0 < x := by
  rw [floor_col, List.mem_map] at hx
  obtain ⟨y, _, rfl⟩ := hx
  by_cases hy : y ≤ 0
  · rw [if_pos hy]; exact eps_pos
  · rw [if_neg hy]; exact lt_of_not_le hy

/-- The gathered entry of a floored and renormalized trial column lies
in (0, 1]. -/
theorem gather_bounds (c : List ℚ) (i : ℕ) (hi : i < c.length) :
    0 < (norm_col (floor_col c)).getD i 0 ∧ (norm_col (floor_col c)).getD i 0 ≤ 1 := by
  have hcne : c ≠ [] := List.length_pos.mp (Nat.lt_of_le_of_lt (Nat.zero_le i) hi)
  have hne : floor_col c ≠ [] := by
    cases c with
    | nil => exact absurd rfl hcne
    | cons a t => simp [floor_col]
  have hpos : ∀ x ∈ floor_col c, 0 < x := fun x hx => mem_floor_col_pos hx
  have hs : 0 < (floor_col c).sum := List.sum_pos _ hpos hne
  have hlen : i < (floor_col c).length := by simpa [floor_col] using hi
  have hlen2 : i < (norm_col (floor_col c)).length := by simpa [norm_col] using hlen
  have hval : (norm_col (floor_col c)).getD i 0
      = (floor_col c).getD i 0 / (floor_col c).sum := by
    rw [List.getD_eq_getElem _ _ hlen2, List.getD_eq_getElem _ _ hlen]
    simp [norm_col]
  have hmem : (floor_col c).getD i 0 ∈ floor_col c := by
    rw [List.getD_eq_getElem _ _ hlen]
    exact List.getElem_mem _
  have hxpos : 0 < (floor_col c).getD i 0 := mem_floor_col_pos hmem
  have hxle : (floor_col c).getD i 0 ≤ (floor_col c).sum :=
    List.single_le_sum (fun x hx => le_of_lt (hpos x hx)) _ hmem
  rw [hval]
  exact ⟨div_pos hxpos hs, (div_le_one hs).mpr hxle⟩

/-- A list of nonpositive reals has nonpositive sum. -/
theorem list_sum_nonpos {l : List ℝ} (h : ∀ x ∈ l, x ≤ 0) : l.sum ≤ 0 := by
  induction l with
  | nil => simp
  | cons a t ih =>
    rw [List.sum_cons]
    have ha := h a (by simp)
    have ht := ih (fun x hx => h x (List.mem_cons_of_mem _ hx))
    linarith

/-- C4: after flooring every non-positive entry of the predictive
distribution to the strictly positive eps and renormalizing each trial
column, every gathered per-trial probability lies in (0, 1], every log
term is nonpositive (and finite, being the real log of a positive
rational), and the negative log likelihood, the negated sum of logs, is
a finite nonnegative real number. -/
theorem claim4_neg_logl_nonneg (cols : List (List ℚ)) (locs : List ℕ)
    (h : ∀ pr ∈ cols.zip locs, pr.2 < pr.1.length) :
    (∀ p ∈ p_data_given_model cols locs, 0 < p ∧ p ≤ 1) ∧
    (∀ p ∈ p_data_given_model cols locs, Real.log (p : ℝ) ≤ 0) ∧
    0 ≤ -(((p_data_given_model cols locs).map (fun p : ℚ => Real.log (p : ℝ))).sum) := by
  have hb : ∀ p ∈ p_data_given_model cols locs, 0 < p ∧ p ≤ 1 := by
    intro p hp
    rw [p_data_given_model, List.mem_map] at hp
    obtain ⟨pr, hpr, rfl⟩ := hp
    exact gather_bounds pr.1 pr.2 (h pr hpr)
  have hlog : ∀ p ∈ p_data_given_model cols locs, Real.log (p : ℝ) ≤ 0 := by
    intro p hp
    obtain ⟨h0, h1⟩ := hb p hp
    refine Real.log_nonpos ?_ ?_
    · exact_mod_cast le_of_lt h0
    · exact_mod_cast h1
  refine ⟨hb, hlog, ?_⟩
  rw [neg_nonneg]
  refine list_sum_nonpos ?_
  intro x hx
  obtain ⟨p, hp, rfl⟩ := List.mem_map.mp hx
  exact hlog p hp

/-- C4 witness: a concrete trial column carrying a negative circular
convolution artifact. -/
theorem claim4_witness :
    (∀ p ∈ p_data_given_model [[1/2, -1/3]] [0], 0 < p ∧ p ≤ 1) ∧
    (∀ p ∈ p_data_given_model [[1/2, -1/3]] [0], Real.log (p : ℝ) ≤ 0) ∧
    0 ≤ -(((p_data_given_model [[1/2, -1/3]] [0]).map (fun p : ℚ => Real.log (p : ℝ))).sum) :=
  claim4_neg_logl_nonneg [[1/2, -1/3]] [0] (by
    intro pr hpr
    have hpr2 : pr = ([1/2, -1/3], 0) := by simpa using hpr
    rw [hpr2]
    simp)

/-- Summing the probability rows of a single measurement that match a
percept counts the matching candidates. -/
theorem filter_pairs_sum (l : List ℕ) (w : ℚ) (p : ℕ) :
    (((l.map (fun c => (c, w))).filter (fun pr => decide (pr.1 = p))).map Prod.snd).sum
      = (l.countP (fun c => decide (c = p)) : ℚ) * w := by
  induction l with
  | nil => simp
  | cons a t ih =>
    by_cases hap : a = p
    · subst hap
      rw [List.map_cons, List.filter_cons_of_pos (by simp), List.map_cons,
        List.sum_cons, ih,
        List.countP_cons_of_pos (fun c => decide (c = a)) t (by simp),
        show ((a, w).2 : ℚ) = w from rfl]
      push_cast
      ring
    · rw [List.map_cons, List.filter_cons_of_neg (by simpa using hap), ih,
        List.countP_cons_of_neg (fun c => decide (c = p)) t (by simpa using hap)]

/-- In a duplicate-free candidate list a percept is matched at most
once. -/
theorem countP_eq_ite_of_nodup {l : List ℕ} {p : ℕ} (h : l.Nodup) :
    l.countP (fun c => decide (c = p)) = if p ∈ l then 1 else 0 := by
  induction l with
  | nil => simp
  | cons a t ih =>
    rw [List.nodup_cons] at h
    by_cases hap : a = p
    · subst hap
      rw [List.countP_cons_of_pos (fun c => decide (c = a)) t (by simp), ih h.2,
        if_neg h.1, if_pos (List.mem_cons_self _ _)]
    · rw [List.countP_cons_of_neg (fun c => decide (c = p)) t (by simpa using hap),
        ih h.2]
      by_cases hpt : p ∈ t
      · rw [if_pos hpt, if_pos (List.mem_cons_of_mem _ hpt)]
      · have hpcons : p ∉ a :: t := by
          intro hmem2
          rcases List.mem_cons.mp hmem2 with h2 | h2
          · exact hap h2.symm
          · exact hpt h2
        rw [if_neg hpt, if_neg hpcons]

/-- Splitting a sum of pointwise sums of two functions over a list. -/
theorem list_sum_map_add {α : Type} (l : List α) (f g : α → ℚ) :
    (l.map (fun x => f x + g x)).sum = (l.map f).sum + (l.map g).sum := by
  induction l with
  | nil => simp
  | cons a t ih =>
    simp only [List.map_cons, List.sum_cons, ih]
    ring

/-- A Kronecker sum over a list missing the key is zero. -/
theorem sum_ite_eq_zero {r : List ℕ} {a : ℕ} (w : ℚ) (ha : a ∉ r) :
    (r.map (fun p => if a = p then w else 0)).sum = 0 := by
  induction r with
  | nil => simp
  | cons b t ih =>
    have hab : a ≠ b := fun h => ha (h ▸ List.mem_cons_self _ _)
    have hat : a ∉ t := fun h => ha (List.mem_cons_of_mem _ h)
    simp only [List.map_cons, List.sum_cons, if_neg hab, ih hat, add_zero]

/-- A Kronecker sum over a duplicate-free list containing the key picks
out its weight. -/
theorem sum_ite_eq_of_nodup {r : List ℕ} {a : ℕ} (w : ℚ) (hnd : r.Nodup)
    (ha : a ∈ r) : (r.map (fun p => if a = p then w else 0)).sum = w := by
  induction r with
  | nil => exact absurd ha (List.not_mem_nil a)
  | cons b t ih =>
    rw [List.nodup_cons] at hnd
    rcases List.mem_cons.mp ha with hab | hat
    · subst hab
      rw [List.map_cons, List.sum_cons, sum_ite_eq_zero w hnd.1, add_zero,
        if_pos rfl]
    · have hab : a ≠ b := fun h => hnd.1 (h ▸ hat)
      rw [List.map_cons, List.sum_cons, if_neg hab, ih hnd.2 hat, zero_add]

/-- Partitioning the probability rows by their percept and summing the
groups over a complete duplicate-free key list recovers the total sum. -/
theorem sum_filter_partition (L : List (ℕ × ℚ)) (r : List ℕ) (hnd : r.Nodup)
    (hmem : ∀ pr ∈ L, pr.1 ∈ r) :
    (r.map (fun p => ((L.filter (fun pr => decide (pr.1 = p))).map Prod.snd).sum)).sum
      = (L.map Prod.snd).sum := by
  induction L with
  | nil => simp
  | cons aw L ih =>
    obtain ⟨a, w⟩ := aw
    have h1 : ∀ p ∈ r, ((((a, w) :: L).filter (fun pr => decide (pr.1 = p))).map
        Prod.snd).sum
        = (if a = p then w else 0)
          + ((L.filter (fun pr => decide (pr.1 = p))).map Prod.snd).sum := by
      intro p _
      by_cases hap : a = p
      · simp [List.filter_cons, hap]
      · simp [List.filter_cons, hap]
    rw [List.map_congr_left h1, list_sum_map_add,
      sum_ite_eq_of_nodup w hnd (hmem (a, w) (List.mem_cons_self _ _)),
      ih (fun pr hpr => hmem pr (List.mem_cons_of_mem _ hpr))]
    simp

/-- The probability rows of one measurement sum to its measurement
likelihood: the k tied candidates each carry 1/k of it. -/
theorem pairs_snd_sum_meas (m : Meas) (j : ℕ) (hne : m.candidates ≠ []) :
    ((m.candidates.map (fun c => (c, prob_pi_given_mi m * m.lik.getD j 0))).map
      Prod.snd).sum = m.lik.getD j 0 := by
  rw [List.map_map]
  have hconst : (Prod.snd ∘ fun c : ℕ => (c, prob_pi_given_mi m * m.lik.getD j 0))
      = fun _ => prob_pi_given_mi m * m.lik.getD j 0 := rfl
  rw [hconst, List.map_const', List.sum_replicate, nsmul_eq_mul]
  have hlen : (m.candidates.length : ℚ) ≠ 0 := by
    have h0 : m.candidates.length ≠ 0 := by
      simpa [List.length_eq_zero] using hne
    exact_mod_cast h0
  rw [prob_pi_given_mi]
  field_simp

/-- The total of all probability rows for stimulus column j is the sum
of the measurement likelihoods. -/
theorem pairs_snd_sum (ms : List Meas) (j : ℕ)
    (hne : ∀ m ∈ ms, m.candidates ≠ []) :
    ((percept_prob_pairs ms j).map Prod.snd).sum
      = (ms.map (fun m => m.lik.getD j 0)).sum := by
  induction ms with
  | nil => simp [percept_prob_pairs]
  | cons m ms ih =>
    rw [percept_prob_pairs] at *
    simp only [List.flatMap_cons, List.map_append, List.sum_append]
    rw [pairs_snd_sum_meas m j (hne m (List.mem_cons_self _ _)),
      ih (fun m2 hm2 => hne m2 (List.mem_cons_of_mem _ hm2))]
    simp

/-- The aggregated percept likelihoods over the full percept space
1..360 sum to the total measurement likelihood of the column. -/
theorem agg_colsum (ms : List Meas) (j : ℕ)
    (hc : ∀ m ∈ ms, m.candidates ≠ [] ∧ ∀ c ∈ m.candidates, c ∈ List.range' 1 360) :
    ((List.range' 1 360).map (fun p => prob_pi_set_given_si ms p j)).sum
      = (ms.map (fun m => m.lik.getD j 0)).sum := by
  have h1 : ((List.range' 1 360).map (fun p => prob_pi_set_given_si ms p j)).sum
      = ((percept_prob_pairs ms j).map Prod.snd).sum := by
    refine sum_filter_partition (percept_prob_pairs ms j) (List.range' 1 360)
      (List.nodup_range' 1 360) ?_
    intro pr hpr
    obtain ⟨m, hm, hpr2⟩ := List.mem_flatMap.mp hpr
    obtain ⟨c, hcmem, rfl⟩ := List.mem_map.mp hpr2
    exact (hc m hm).2 c hcmem
  rw [h1, pairs_snd_sum ms j (fun m hm => (hc m hm).1)]

/-- Dividing a column entrywise by a nonzero sum renormalizes it to
total 1. -/
theorem norm_col_sum {c : List ℚ} (h : c.sum ≠ 0) : (norm_col c).sum = 1 := by
  have hdiv : ∀ (l : List ℚ) (s : ℚ), (l.map (fun x => x / s)).sum = l.sum / s := by
    intro l s
    induction l with
    | nil => simp
    | cons a t ih => simp only [List.map_cons, List.sum_cons, ih, add_div]
  rw [norm_col, hdiv, div_self h]

/-- A percept no measurement produces receives aggregated likelihood 0
at every stimulus column. -/
theorem agg_unproduced_zero (ms : List Meas) (p j : ℕ)
    (h : ∀ m ∈ ms, p ∉ m.candidates) :
    prob_pi_set_given_si ms p j = 0 := by
  rw [prob_pi_set_given_si]
  have hfil : (percept_prob_pairs ms j).filter (fun pr => decide (pr.1 = p)) = [] := by
    rw [List.filter_eq_nil_iff]
    intro pr hpr
    obtain ⟨m, hm, hpr2⟩ := List.mem_flatMap.mp hpr
    obtain ⟨c, hcmem, rfl⟩ := List.mem_map.mp hpr2
    simp only [decide_eq_true_eq]
    intro hcp
    exact h m hm (hcp ▸ hcmem)
  rw [hfil]
  simp

/-- A found index is a valid position of the searched list. -/
theorem findIdx?_lt_length {l : List ℕ} {p : ℕ → Bool} {j : ℕ}
    (h : l.findIdx? p = some j) : j < l.length :=
  (List.findIdx?_eq_some_iff_findIdx_eq.mp h).1

/-- C5: every measurement with k tied candidate percepts assigns each
candidate conditional probability exactly 1/k, and for every percept p
and stimulus column j the aggregated likelihood produced by the
flatten-sort-sum of the source equals the sum, over measurements whose
candidate set contains p, of P(p given m) times P(m given s). -/
theorem claim5_equal_split_aggregation (ms : List Meas)
    (hnd : ∀ m ∈ ms, m.candidates.Nodup) :
    (∀ m ∈ ms, prob_pi_given_mi m = 1 / (m.candidates.length : ℚ)) ∧
    (∀ p j, prob_pi_set_given_si ms p j = spec_percept_likelihood ms p j) := by
  refine ⟨fun m _ => rfl, ?_⟩
  intro p j
  induction ms with
  | nil => simp [prob_pi_set_given_si, percept_prob_pairs, spec_percept_likelihood]
  | cons m ms ih =>
    have hndm := hnd m (List.mem_cons_self _ _)
    have hndt : ∀ m2 ∈ ms, m2.candidates.Nodup :=
      fun m2 hm2 => hnd m2 (List.mem_cons_of_mem _ hm2)
    have hihs := ih hndt
    have hsplit : prob_pi_set_given_si (m :: ms) p j
        = (((m.candidates.map
              (fun c => (c, prob_pi_given_mi m * m.lik.getD j 0))).filter
            (fun pr => decide (pr.1 = p))).map Prod.snd).sum
          + prob_pi_set_given_si ms p j := by
      rw [prob_pi_set_given_si, prob_pi_set_given_si, percept_prob_pairs,
        percept_prob_pairs, List.flatMap_cons, List.filter_append,
        List.map_append, List.sum_append]
    by_cases hp : p ∈ m.candidates
    · have hspec : spec_percept_likelihood (m :: ms) p j
          = prob_pi_given_mi m * m.lik.getD j 0 + spec_percept_likelihood ms p j := by
        rw [spec_percept_likelihood, spec_percept_likelihood,
          List.filter_cons_of_pos (by simpa using hp), List.map_cons, List.sum_cons]
      rw [hsplit, hspec, hihs, filter_pairs_sum, countP_eq_ite_of_nodup hndm,
        if_pos hp]
      push_cast
      ring
    · have hspec : spec_percept_likelihood (m :: ms) p j
          = spec_percept_likelihood ms p j := by
        rw [spec_percept_likelihood, spec_percept_likelihood,
          List.filter_cons_of_neg (by simpa using hp)]
      rw [hsplit, hspec, hihs, filter_pairs_sum, countP_eq_ite_of_nodup hndm,
        if_neg hp]
      push_cast
      ring

/-- C5 witness: two measurements, one with tied candidates 1 and 2, one
producing only 2, agree with the spec aggregation at percept 2. -/
theorem claim5_witness :
    prob_pi_set_given_si [⟨[1, 2], [1/2]⟩, ⟨[2], [1/3]⟩] 2 0
      = spec_percept_likelihood [⟨[1, 2], [1/2]⟩, ⟨[2], [1/3]⟩] 2 0 :=
  (claim5_equal_split_aggregation [⟨[1, 2], [1/2]⟩, ⟨[2], [1/3]⟩]
    (by
      intro m hm
      rcases List.mem_cons.mp hm with h | h
      · subst h; decide
      · rw [List.mem_singleton] at h; subst h; decide)).2 2 0

/-- C6 counterexample: with the condition containing only stimulus mean
5, the table column for stimulus value 1 was never filled: it is the
initialized NaN column (none), so it does not sum to 1; the claim that
every stimulus column of the table sums to 1 fails. -/
theorem claim6_counterexample :
    percept_likelihood_col [⟨[10], [1]⟩] [5] 1 = none ∧
    ¬ ∃ col, percept_likelihood_col [⟨[10], [1]⟩] [5] 1 = some col ∧ col.sum = 1 := by
  have h : percept_likelihood_col [⟨[10], [1]⟩] [5] 1 = none := rfl
  exact ⟨h, fun ⟨col, hcol, _⟩ => by rw [h] at hcol; exact Option.noConfusion hcol⟩

/-- C6 amended: the final table has an explicit all-zero row for every
percept in [1,360] never produced by any measurement (before and after
the final renormalization), and every filled stimulus column, that is
every column whose stimulus value occurs among the condition's stimulus
means, sums to exactly 1 after renormalization; columns for stimulus
values absent from the condition stay NaN. -/
theorem claim6_table_normalization (ms : List Meas) (stim_mean : List ℕ)
    (hc : ∀ m ∈ ms, m.candidates ≠ [] ∧ ∀ c ∈ m.candidates, c ∈ List.range' 1 360)
    (hsum : ∀ j, j < stim_mean.length → (ms.map (fun m => m.lik.getD j 0)).sum = 1) :
    (∀ p ∈ List.range' 1 360, (∀ m ∈ ms, p ∉ m.candidates) → ∀ j,
      prob_pi_set_given_si ms p j = 0 ∧
      prob_pi_set_given_si ms p j
        / ((List.range' 1 360).map (fun q => prob_pi_set_given_si ms q j)).sum = 0) ∧
    (∀ s j, stim_mean.findIdx? (fun t => decide (t = s)) = some j →
      ∃ col, percept_likelihood_col ms stim_mean s = some col ∧ col.sum = 1) := by
  constructor
  · intro p _ hunprod j
    exact ⟨agg_unproduced_zero ms p j hunprod,
      by rw [agg_unproduced_zero ms p j hunprod, zero_div]⟩
  · intro s j hfind
    have hj : j < stim_mean.length := findIdx?_lt_length hfind
    have hcols : ((List.range' 1 360).map (fun p => prob_pi_set_given_si ms p j)).sum
        = 1 := by
      rw [agg_colsum ms j hc, hsum j hj]
    refine ⟨norm_col ((List.range' 1 360).map (fun p => prob_pi_set_given_si ms p j)),
      ?_, ?_⟩
    · rw [percept_likelihood_col, hfind]
    · exact norm_col_sum (by rw [hcols]; norm_num)

/-- C6 witness: a single measurement producing percept 10 with
likelihood 1 at the single stimulus mean 5 gives a filled column at
stimulus 5 summing to 1. -/
theorem claim6_witness :
    ∃ col, percept_likelihood_col [⟨[10], [1]⟩] [5] 5 = some col ∧ col.sum = 1 :=
  (claim6_table_normalization [⟨[10], [1]⟩] [5]
    (by
      intro m hm
      rw [List.mem_singleton] at hm
      subst hm
      refine ⟨by simp, ?_⟩
      intro c hc
      rw [List.mem_singleton] at hc
      subst hc
      exact List.mem_range'_1.mpr ⟨by omega, by omega⟩)
    (by
      intro j hj
      have hj0 : j = 0 := by
        simpa using Nat.lt_one_iff.mp hj
      subst hj0
      simp)).2 5 0 rfl

/-- C7: replacing a trial estimate of 0 by 360, all other entries equal,
leaves the objective evaluation unchanged: the canonicalized estimate
column computed by get_data, the gathered per-trial probabilities of
get_logl, and the resulting negative log likelihood are identical. -/
theorem claim7_wrap_invariant (cols : List (List ℚ)) (pre post : List ℕ)
    (qpre qpost : List ℚ) :
    ((qpre ++ 0 :: qpost).map canonicalize_estimate
      = (qpre ++ 360 :: qpost).map canonicalize_estimate) ∧
    (p_data_given_model cols ((pre ++ 0 :: post).map estimate_loc)
      = p_data_given_model cols ((pre ++ 360 :: post).map estimate_loc)) ∧
    (-(((p_data_given_model cols ((pre ++ 0 :: post).map estimate_loc)).map
        (fun p : ℚ => Real.log (p : ℝ))).sum)
      = -(((p_data_given_model cols ((pre ++ 360 :: post).map estimate_loc)).map
        (fun p : ℚ => Real.log (p : ℝ))).sum)) := by
  have h : (pre ++ 0 :: post).map estimate_loc
      = (pre ++ 360 :: post).map estimate_loc := by
    simp [List.map_append, estimate_loc]
  have hq : (qpre ++ 0 :: qpost).map canonicalize_estimate
      = (qpre ++ 360 :: qpost).map canonicalize_estimate := by
    simp [List.map_append, canonicalize_estimate]
  exact ⟨hq, by rw [h], by rw [h]⟩

/-- Folding max over copies of a value returns that value. -/
theorem foldl_max_replicate (n : ℕ) (a : ℚ) :
    (List.replicate n a).foldl max a = a := by
  induction n with
  | zero => rfl
  | succ k ih => rw [List.replicate_succ, List.foldl_cons, max_self, ih]

/-- numpy max of a constant nonempty column is that constant. -/
theorem np_max_replicate (n : ℕ) (a : ℚ) :
    np_max (List.replicate (n + 1) a) = some a := by
  rw [List.replicate_succ, np_max, foldl_max_replicate]

/-- The second component of any pair zipped against a constant column is
that constant. -/
theorem zip_replicate_snd {space : List ℕ} {c : ℚ} {pr : ℕ × ℚ}
    (h : pr ∈ space.zip (List.replicate space.length c)) : pr.2 = c := by
  obtain ⟨a, b⟩ := pr
  exact List.eq_of_mem_replicate (List.of_mem_zip h).2

/-- Unfolding lemma for choose_percept_row on a column with a computed
maximum. -/
theorem choose_percept_row_some {space : List ℕ} {col : List ℚ} {mx : ℚ}
    (h : np_max col = some mx) :
    choose_percept_row space col
      = ((space.zip col).filter (fun pr => decide (pr.2 = mx))).map
        (fun pr => canon_percept pr.1) := by
  rw [choose_percept_row, h]

/-- On a perfectly flat column the MAP filter keeps every position. -/
theorem choose_percept_row_flat (space : List ℕ) (c : ℚ) (hne : space ≠ []) :
    choose_percept_row space (List.replicate space.length c)
      = space.map canon_percept := by
  cases space with
  | nil => exact absurd rfl hne
  | cons s t =>
    have hmx : np_max (List.replicate (s :: t).length c) = some c := by
      rw [show (s :: t).length = t.length + 1 from rfl]
      exact np_max_replicate t.length c
    rw [choose_percept_row_some hmx]
    have hfil : (((s :: t).zip (List.replicate (s :: t).length c)).filter
        (fun pr => decide (pr.2 = c)))
        = (s :: t).zip (List.replicate (s :: t).length c) := by
      refine List.filter_eq_self.mpr ?_
      intro pr hpr
      exact decide_eq_true (zip_replicate_snd hpr)
    rw [hfil]
    have hmap : ((s :: t).zip (List.replicate (s :: t).length c)).map
        (fun pr => canon_percept pr.1)
        = (((s :: t).zip (List.replicate (s :: t).length c)).map Prod.fst).map
          canon_percept := by
      rw [List.map_map]
      rfl
    rw [hmap, List.map_fst_zip]
    simp

/-- Canonicalization is the identity on the stimulus space 1..360. -/
theorem range_map_canon :
    (List.range' 1 360).map canon_percept = List.range' 1 360 := by
  have h : ∀ x ∈ List.range' 1 360, canon_percept x = x := by
    intro x hx
    have h1 : 1 ≤ x := (List.mem_range'_1.mp hx).1
    rw [canon_percept, if_neg (by omega)]
  calc (List.range' 1 360).map canon_percept
      = (List.range' 1 360).map id := List.map_congr_left h
    _ = List.range' 1 360 := List.map_id _

/-- Folding max from an initial value stays in the list or at the
initial value. -/
theorem foldl_max_mem : ∀ (t : List ℚ) (a : ℚ), t.foldl max a = a ∨ t.foldl max a ∈ t := by
  intro t
  induction t with
  | nil => exact fun a => Or.inl rfl
  | cons b t ih =>
    intro a
    rw [List.foldl_cons]
    rcases ih (max a b) with h | h
    · rcases max_choice a b with hm | hm
      · exact Or.inl (by rw [h, hm])
      · exact Or.inr (by rw [h, hm]; exact List.mem_cons_self _ _)
    · exact Or.inr (List.mem_cons_of_mem _ h)

/-- The numpy max of a column is attained by some entry. -/
theorem np_max_mem {l : List ℚ} {m : ℚ} (h : np_max l = some m) : m ∈ l := by
  cases l with
  | nil => exact absurd h (by rw [np_max]; exact Option.noConfusion)
  | cons a t =>
    rw [np_max, Option.some_inj] at h
    rcases foldl_max_mem t a with h2 | h2
    · rw [← h, h2]; exact List.mem_cons_self _ _
    · rw [← h]; exact List.mem_cons_of_mem _ h2

/-- A value attained in a column appears as the second component of a
zip against a space at least as long. -/
theorem exists_zip_pair {mx : ℚ} :
    ∀ (col : List ℚ) (space : List ℕ), mx ∈ col → col.length ≤ space.length →
      ∃ a, (a, mx) ∈ space.zip col := by
  intro col
  induction col with
  | nil => intro space h _; exact absurd h (List.not_mem_nil mx)
  | cons c ct ih =>
    intro space hmem hlen
    cases space with
    | nil => simp at hlen
    | cons s st =>
      rcases List.mem_cons.mp hmem with h | h
      · exact ⟨s, by rw [h, List.zip_cons_cons]; exact List.mem_cons_self _ _⟩
      · obtain ⟨a, ha⟩ := ih st h (by simpa using Nat.le_of_succ_le_succ hlen)
        exact ⟨a, by rw [List.zip_cons_cons]; exact List.mem_cons_of_mem _ ha⟩

/-- Every nonempty measurement column no longer than the space yields a
nonempty candidate set. -/
theorem choose_percept_row_ne_nil {space : List ℕ} {col : List ℚ}
    (hne : col ≠ []) (hlen : col.length ≤ space.length) :
    choose_percept_row space col ≠ [] := by
  cases hmx : np_max col with
  | none =>
    cases col with
    | nil => exact absurd rfl hne
    | cons a t => exact absurd hmx (by rw [np_max]; exact Option.noConfusion)
  | some mx =>
    have hmem : mx ∈ col := np_max_mem hmx
    obtain ⟨a, ha⟩ := exists_zip_pair col space hmem hlen
    have hfil : (a, mx) ∈ (space.zip col).filter (fun pr => decide (pr.2 = mx)) :=
      List.mem_filter.mpr ⟨ha, by simp⟩
    rw [choose_percept_row, hmx]
    exact List.ne_nil_of_mem (List.mem_map_of_mem _ hfil)

/-- Candidates selected over the stimulus space 1..360 lie in [1,360]. -/
theorem choose_percept_row_mem_range {col : List ℚ} {p : ℕ}
    (hp : p ∈ choose_percept_row (List.range' 1 360) col) : 1 ≤ p ∧ p ≤ 360 := by
  rw [choose_percept_row] at hp
  cases hmx : np_max col with
  | none => rw [hmx] at hp; exact absurd hp (List.not_mem_nil p)
  | some mx =>
    rw [hmx] at hp
    obtain ⟨pr, hpr, rfl⟩ := List.mem_map.mp hp
    have hfst : pr.1 ∈ List.range' 1 360 :=
      (List.of_mem_zip (List.mem_of_mem_filter hpr)).1
    have hb := List.mem_range'_1.mp hfst
    rw [canon_percept, if_neg (by omega)]
    omega

/-- A candidate row is never longer than the stimulus space. -/
theorem choose_percept_row_length_le (space : List ℕ) (col : List ℚ) :
    (choose_percept_row space col).length ≤ space.length := by
  rw [choose_percept_row]
  cases np_max col with
  | none => exact Nat.zero_le _
  | some mx =>
    rw [List.length_map]
    calc ((space.zip col).filter (fun pr => decide (pr.2 = mx))).length
        ≤ (space.zip col).length := List.length_filter_le _ _
      _ ≤ space.length := by rw [List.length_zip]; exact Nat.min_le_left _ _

/-- Folding max over a list bounded by n stays bounded by n. -/
theorem foldr_max_le {l : List ℕ} {n : ℕ} (h : ∀ x ∈ l, x ≤ n) :
    l.foldr max 0 ≤ n := by
  induction l with
  | nil => exact Nat.zero_le n
  | cons a t ih =>
    rw [List.foldr_cons]
    exact max_le (h a (List.mem_cons_self _ _))
      (ih fun x hx => h x (List.mem_cons_of_mem _ hx))

/-- Folding max over a list bounded by n that contains n gives n. -/
theorem foldr_max_eq {l : List ℕ} {n : ℕ} (h : ∀ x ∈ l, x ≤ n) (hm : n ∈ l) :
    l.foldr max 0 = n := by
  induction l with
  | nil => exact absurd hm (List.not_mem_nil n)
  | cons a t ih =>
    rw [List.foldr_cons]
    rcases List.mem_cons.mp hm with hn | hn
    · subst hn
      exact max_eq_left (foldr_max_le fun x hx => h x (List.mem_cons_of_mem _ hx))
    · rw [ih (fun x hx => h x (List.mem_cons_of_mem _ hx)) hn]
      exact max_eq_right (h a (List.mem_cons_self _ _))

/-- C8: for readout "map", a measurement whose posterior column is
perfectly flat (all 360 domain values attain the maximum) receives all
360 domain positions, in order and with 0 canonicalized to 360, as its
candidate percept set, the call succeeds, and the returned maximum
candidate count is 360. -/
theorem claim8_flat_posterior_map (posterior : List (List ℚ)) (i : ℕ) (c : ℚ)
    (hi : posterior[i]? = some (List.replicate 360 c))
    (hcols : ∀ col ∈ posterior, col ≠ [] ∧ col.length ≤ 360) :
    ∃ rows, choose_percept "map" (List.range' 1 360) posterior
        = Except.ok (rows, 360) ∧
      rows[i]? = some (List.range' 1 360) := by
  have hlen360 : (List.range' 1 360).length = 360 := by simp
  have hflat : choose_percept_row (List.range' 1 360) (List.replicate 360 c)
      = List.range' 1 360 := by
    have h1 : choose_percept_row (List.range' 1 360)
        (List.replicate (List.range' 1 360).length c)
        = (List.range' 1 360).map canon_percept :=
      choose_percept_row_flat _ c (by rw [← List.length_pos, hlen360]; omega)
    rw [hlen360] at h1
    rw [h1, range_map_canon]
  have hrow_i : (posterior.map (choose_percept_row (List.range' 1 360)))[i]?
      = some (List.range' 1 360) := by
    rw [List.getElem?_map, hi, Option.map_some', hflat]
  have hno_nil : ¬ ∃ r ∈ posterior.map (choose_percept_row (List.range' 1 360)), r = [] := by
    rintro ⟨r, hr, hrnil⟩
    obtain ⟨col, hcol, rfl⟩ := List.mem_map.mp hr
    exact choose_percept_row_ne_nil (hcols col hcol).1
      (by rw [hlen360]; exact (hcols col hcol).2) hrnil
  have hrange_ok : ¬ ∃ r ∈ posterior.map (choose_percept_row (List.range' 1 360)),
      ∃ p ∈ r, 360 < p ∨ p < 1 := by
    rintro ⟨r, hr, p, hp, hbad⟩
    obtain ⟨col, hcol, rfl⟩ := List.mem_map.mp hr
    have hb := choose_percept_row_mem_range hp
    omega
  have hmax : ((posterior.map (choose_percept_row (List.range' 1 360))).map
      List.length).foldr max 0 = 360 := by
    refine foldr_max_eq ?_ ?_
    · intro x hx
      obtain ⟨r, hr, rfl⟩ := List.mem_map.mp hx
      obtain ⟨col, hcol, rfl⟩ := List.mem_map.mp hr
      have := choose_percept_row_length_le (List.range' 1 360) col
      rw [hlen360] at this
      exact this
    · have : ((posterior.map (choose_percept_row (List.range' 1 360))).map
          List.length)[i]? = some 360 := by
        rw [List.getElem?_map, hrow_i, Option.map_some', hlen360]
      exact List.getElem?_mem this
  refine ⟨posterior.map (choose_percept_row (List.range' 1 360)), ?_, hrow_i⟩
  unfold choose_percept
  rw [if_pos rfl, if_neg hno_nil, if_neg hrange_ok, hmax]

/-- C8 witness: a single measurement with a perfectly flat posterior
column receives all 360 positions and the maximum candidate count is
360. -/
theorem claim8_witness :
    ∃ rows, choose_percept "map" (List.range' 1 360)
        [List.replicate 360 ((1 : ℚ)/2)] = Except.ok (rows, 360) ∧
      rows[0]? = some (List.range' 1 360) :=
  claim8_flat_posterior_map [List.replicate 360 ((1 : ℚ)/2)] 0 (1/2) rfl
    (by
      intro col hcol
      rw [List.mem_singleton] at hcol
      subst hcol
      refine ⟨?_, ?_⟩
      · rw [← List.length_pos, List.length_replicate]
        omega
      · rw [List.length_replicate])

/-- C9: fit_maxlogl calls fmin with iteration cap 100, function
evaluation cap 100 and objective tolerance 1e-4 and retall=True, with
full_output left at its default 0, so output[1] is fmin's allvecs, the
best parameter vector after each iteration; the result field named
neglogl therefore holds that sequence of parameter vectors, not the
sequence of objective values the claim describes. -/
theorem claim9_fit_maxlogl_packaging :
    fit_maxlogl_fmin_options.maxiter = 100 ∧
    fit_maxlogl_fmin_options.maxfun = 100 ∧
    fit_maxlogl_fmin_options.ftol = 1 / 10000 ∧
    fit_maxlogl_fmin_options.retall = true ∧
    ∀ output : FminOutput,
      (fit_maxlogl_pack output).neglogl = output.allvecs ∧
      (fit_maxlogl_pack output).best_fit_params = output.xopt :=
  ⟨rfl, rfl, rfl, rfl, fun _ => ⟨rfl, rfl⟩⟩

/-- C10: for any prior_shape other than vonMisesPrior, get_learnt_prior
does not return a prior matrix: it fails with the unbound-variable
error on learnt_prior rather than a descriptive unsupported
configuration error. -/
theorem claim10_learnt_prior_unbound (prior_shape : String)
    (vm_prior_col : List ℚ) (n_percept : ℕ)
    (h : prior_shape ≠ "vonMisesPrior") :
    get_learnt_prior prior_shape vm_prior_col n_percept
      = Except.error (PyError.unboundLocal "learnt_prior") := by
  simp [get_learnt_prior, h]

/-- C10 witness: a uniform prior shape fails with the unbound variable
error. -/
theorem claim10_witness :
    get_learnt_prior "uniform" [1] 2
      = Except.error (PyError.unboundLocal "learnt_prior") :=
  claim10_learnt_prior_unbound "uniform" [1] 2 (by decide)

end BsFit
